import Mathlib

/-!
Verification of the rust-knowledge-search indexing engine.

The Rust source is embedded shallowly:
* Rust `String` / `PathBuf` values are modelled as lists of Unicode scalar
  values (`Str := List Char`); `Uuid` is modelled as an abstract identifier
  drawn from `ℕ`.
* `HashMap<K, V>` fields are modelled extensionally as functions `K → Option V`;
  `HashSet<T>` values are modelled as `Finset T`.
* fallible I/O (file reads) is modelled by passing the outcome of the read as
  an `Option` argument; the uuid minted by `Uuid::new_v4()` is passed as an
  argument about which freshness is assumed where the claims need it.
-/

namespace RustKS

/-- A Rust string, as its sequence of Unicode scalar values. -/
abbrev Str := List Char

/-- Document identifier (`uuid::Uuid`), modelled as an abstract id. -/
abbrev Uuid := Nat

/-- `Document` from src/src/ingestion.rs: id, path, content and optional
modified timestamp (`SystemTime` modelled as `ℕ`). -/
structure Document where
  id : Uuid
  path : Str
  content : Str
  modified : Option Nat
deriving DecidableEq

/-! ## Tokenizer (src/src/tokenizer.rs) -/

/-- Rust `char::is_ascii_alphanumeric`: `0`–`9` (0x30–0x39), `A`–`Z`
(0x41–0x5A), `a`–`z` (0x61–0x7A). -/
def isAsciiAlphanumeric (c : Char) : Bool :=
  (0x30 ≤ c.toNat && c.toNat ≤ 0x39) ||
  (0x41 ≤ c.toNat && c.toNat ≤ 0x5A) ||
  (0x61 ≤ c.toNat && c.toNat ≤ 0x7A)

/-- Rust `char::is_whitespace`: the Unicode `White_Space` property
(U+0009–U+000D, U+0020, U+0085, U+00A0, U+1680, U+2000–U+200A, U+2028,
U+2029, U+202F, U+205F, U+3000). -/
def isRustWhitespace (c : Char) : Bool :=
  (0x9 ≤ c.toNat && c.toNat ≤ 0xD) || c.toNat == 0x20 || c.toNat == 0x85 ||
  c.toNat == 0xA0 || c.toNat == 0x1680 ||
  (0x2000 ≤ c.toNat && c.toNat ≤ 0x200A) || c.toNat == 0x2028 ||
  c.toNat == 0x2029 || c.toNat == 0x202F || c.toNat == 0x205F ||
  c.toNat == 0x3000

/-- Rust `str::to_lowercase`, character-wise.  The model is faithful on the
Latin-1 range (the simple mappings `A`–`Z` and `À`–`Þ` except `×` shift by
0x20; every other Latin-1 scalar is lowercase-invariant); scalars above
U+00FF are left unchanged — all concrete inputs in this development are
Latin-1, where the model coincides with Rust. -/
def charToLower (c : Char) : Char :=
  if 0x41 ≤ c.toNat && c.toNat ≤ 0x5A then Char.ofNat (c.toNat + 0x20)
  else if 0xC0 ≤ c.toNat && c.toNat ≤ 0xDE && c.toNat != 0xD7 then
    Char.ofNat (c.toNat + 0x20)
  else c

/-- Rust `str::to_lowercase` over a whole string (step 1 of `tokenize`). -/
def toLowercase (s : Str) : Str := s.map charToLower

/-- The cleaning loop of `tokenize` (steps 3–4): ASCII alphanumerics and
whitespace are pushed unchanged, every other character is replaced by a
space. -/
def cleanedChar (c : Char) : Char :=
  if isAsciiAlphanumeric c || isRustWhitespace c then c else ' '

/-- Splitting a string at separator characters, discarding empty pieces;
`acc` is the current piece, accumulated in reverse.  With
`sep := isRustWhitespace` this is Rust `str::split_whitespace`. -/
def splitSepGo (sep : Char → Bool) : Str → Str → List Str
  | [], acc => if acc = [] then [] else [acc.reverse]
  | c :: cs, acc =>
    if sep c then
      if acc = [] then splitSepGo sep cs []
      else acc.reverse :: splitSepGo sep cs []
    else splitSepGo sep cs (c :: acc)

/-- Split a string at the characters satisfying `sep`, discarding empties. -/
def splitSep (sep : Char → Bool) (s : Str) : List Str := splitSepGo sep s []

/-- Rust `str::split_whitespace` (step 5 of `tokenize`). -/
def splitWhitespace (s : Str) : List Str := splitSep isRustWhitespace s

/-- `tokenize` from src/src/tokenizer.rs: lowercase, replace every character
that is neither ASCII-alphanumeric nor whitespace by a space, then split on
whitespace. -/
def tokenize (text : Str) : List Str :=
  splitWhitespace ((toLowercase text).map cleanedChar)

/-! ### Tokenizer, as the specification words it

The spec (§6) says `tokenize` "treats any non-alphanumeric/non-whitespace
character as a token separator".  Rust's `char::is_alphanumeric` is the
Unicode property (Alphabetic or Nd/Nl/No), which keeps letters such as `ï`;
the code instead uses `char::is_ascii_alphanumeric`.  The spec-side cleaner
below follows the spec's words, to be compared with the code's `tokenize`. -/

/-- Modelled from the spec: Unicode "alphanumeric" (Rust
`char::is_alphanumeric` = Alphabetic ∨ Numeric), given faithfully on the
Latin-1 range: ASCII alphanumerics, the letters ª µ º À–Ö Ø–ö ø–ÿ and the
numeric characters ¹²³¼½¾.  Scalars above U+00FF are not classified (the
counterexamples below stay inside Latin-1). -/
def isUnicodeAlphanumericL1 (c : Char) : Bool :=
  isAsciiAlphanumeric c ||
  c.toNat == 0xAA || c.toNat == 0xB2 || c.toNat == 0xB3 || c.toNat == 0xB5 ||
  c.toNat == 0xB9 || c.toNat == 0xBA || c.toNat == 0xBC || c.toNat == 0xBD ||
  c.toNat == 0xBE ||
  (0xC0 ≤ c.toNat && c.toNat ≤ 0xFF && c.toNat != 0xD7 && c.toNat != 0xF7)

/-- The spec's cleaning step: keep alphanumeric (Unicode) and whitespace
characters, replace every other character by a space. -/
def cleanedCharSpec (c : Char) : Char :=
  if isUnicodeAlphanumericL1 c || isRustWhitespace c then c else ' '

/-- The tokenizer as the spec words it: "the whitespace-split of the
lower-cased input with every non-alphanumeric, non-whitespace character
replaced by a separator". -/
def tokenizeSpec (text : Str) : List Str :=
  splitWhitespace ((toLowercase text).map cleanedCharSpec)

/-! ## The Index (src/src/index.rs) -/

/-- `Index` from src/src/index.rs: the four co-maps. -/
@[ext]
structure Index where
  postings : Str → Option (Finset Uuid)
  documents : Uuid → Option Document
  path_to_id : Str → Option Uuid
  doc_tokens : Uuid → Option (Finset Str)

/-- `Index::new`. -/
def Index.new : Index :=
  { postings := fun _ => none
    documents := fun _ => none
    path_to_id := fun _ => none
    doc_tokens := fun _ => none }

/-- Step 1 of `add_document`: tokenize and deduplicate into a token set. -/
def uniqueTokens (content : Str) : Finset Str := (tokenize content).toFinset

/-- `Index::add_document`: store the token set under `doc.id`, insert
`doc.id` into the posting set of each of its tokens (creating the set when
absent), store the document and the path mapping. -/
def add_document (idx : Index) (doc : Document) : Index :=
  { postings := fun t =>
      if t ∈ uniqueTokens doc.content then
        some (insert doc.id ((idx.postings t).getD ∅))
      else idx.postings t
    documents := fun i => if i = doc.id then some doc else idx.documents i
    path_to_id := fun p => if p = doc.path then some doc.id else idx.path_to_id p
    doc_tokens := fun i =>
      if i = doc.id then some (uniqueTokens doc.content) else idx.doc_tokens i }

/-- Lines 62–71 of src/src/index.rs: discard `docId` from one posting entry,
deleting the entry entirely if it becomes empty (absent entries stay
absent). -/
def erasePosting (o : Option (Finset Uuid)) (docId : Uuid) : Option (Finset Uuid) :=
  match o with
  | some ids => if ids.erase docId = ∅ then none else some (ids.erase docId)
  | none => none

/-- `Index::remove_document`: when the document is stored, delete the
`path_to_id` entry at its stored path; when its token set is absent, return
early; otherwise erase `docId` from the posting set of each of its tokens
and delete its `doc_tokens` and `documents` entries. -/
def remove_document (idx : Index) (docId : Uuid) : Index :=
  let idx1 : Index :=
    match idx.documents docId with
    | some doc =>
      { idx with path_to_id := fun p => if p = doc.path then none else idx.path_to_id p }
    | none => idx
  match idx1.doc_tokens docId with
  | none => idx1
  | some tokens =>
    { postings := fun t =>
        if t ∈ tokens then erasePosting (idx1.postings t) docId else idx1.postings t
      documents := fun i => if i = docId then none else idx1.documents i
      path_to_id := idx1.path_to_id
      doc_tokens := fun i => if i = docId then none else idx1.doc_tokens i }

/-- `Index::search_query`: tokenize the query and collect every id of every
posting set of a query token.  The Rust function returns the collected
`HashSet` as a `Vec` in unspecified order; the result is modelled as the set
of returned ids. -/
def search_query (idx : Index) (query : Str) : Finset Uuid :=
  (tokenize query).foldl (fun acc t => acc ∪ (idx.postings t).getD ∅) ∅

/-- `Index::remove_document_by_path`: look the path up and delegate to
`remove_document`; no-op when the path is unbound. -/
def remove_document_by_path (idx : Index) (path : Str) : Index :=
  match idx.path_to_id path with
  | some docId => remove_document idx docId
  | none => idx

/-- `Index::upsert_document`: when a document already exists for this path,
remove it first, then add. -/
def upsert_document (idx : Index) (doc : Document) : Index :=
  match idx.path_to_id doc.path with
  | some existingId => add_document (remove_document idx existingId) doc
  | none => add_document idx doc

/-! ## Snapshot (src/src/index.rs, `save_to_disk` / `load_from_disk`) -/

/-- The persisted snapshot: `save_to_disk` serializes `self` with the derived
`Serialize` instance, i.e. the four maps field for field. -/
structure Snapshot where
  postings : Str → Option (Finset Uuid)
  documents : Uuid → Option Document
  path_to_id : Str → Option Uuid
  doc_tokens : Uuid → Option (Finset Str)

/-- `Index::save_to_disk`: the snapshot records the four maps verbatim. -/
def save_to_disk (idx : Index) : Snapshot :=
  ⟨idx.postings, idx.documents, idx.path_to_id, idx.doc_tokens⟩

/-- Modelled from the spec: `Index::load_from_disk` has an empty body in
src/src/index.rs (the decode half of the codec is missing from the source);
per §4.1, "restoring must reproduce all four maps losslessly — specifically
`docTokens` must round-trip rather than being recomputed", so the restore
reads the four serialized maps back verbatim. -/
def load_from_disk (s : Snapshot) : Index :=
  ⟨s.postings, s.documents, s.path_to_id, s.doc_tokens⟩

/-! ## The Synchronizer loop (src/src/main.rs, `create_watcher_channel`) -/

/-- `IndexEvent` from src/src/watcher.rs. -/
inductive IndexEvent where
  | Created (path : Str)
  | Modified (path : Str)
  | Deleted (path : Str)

/-- One iteration of the Synchronizer loop in `create_watcher_channel`
(src/src/main.rs, lines 112–158).  `readResult` models the outcome of
`fs::read_to_string` together with `SystemTime::now()` (contents and
timestamp on success, `none` on failure); `fresh` models the uuid
`Uuid::new_v4()` would mint.  For `Created`/`Modified`: on a failed read the
index is untouched; on success the id bound to the path is reused when
present, `fresh` otherwise, and the built document is upserted.  For
`Deleted`: remove by path. -/
def syncStep (idx : Index) (ev : IndexEvent) (readResult : Option (Str × Nat))
    (fresh : Uuid) : Index :=
  match ev with
  | .Created path | .Modified path =>
    match readResult with
    | some (contents, ts) =>
      let docId : Uuid :=
        match idx.path_to_id path with
        | some existingId => existingId
        | none => fresh
      upsert_document idx ⟨docId, path, contents, some ts⟩
    | none => idx
  | .Deleted path => remove_document_by_path idx path

/-- The Synchronizer consuming a queue of events in arrival order; each list
entry carries the event, its read outcome and the uuid that a fresh mint
would produce. -/
def syncRun (idx : Index) : List (IndexEvent × Option (Str × Nat) × Uuid) → Index
  | [] => idx
  | (ev, r, f) :: rest => syncRun (syncStep idx ev r f) rest

/-! ## The data-model invariants (spec §3) -/

/-- `d ∈ postings[t]` (an absent entry reads as the empty set). -/
def postingMem (idx : Index) (t : Str) (d : Uuid) : Prop :=
  d ∈ (idx.postings t).getD ∅

/-- `t ∈ docTokens[d]` (an absent entry reads as the empty set). -/
def tokenMem (idx : Index) (d : Uuid) (t : Str) : Prop :=
  t ∈ (idx.doc_tokens d).getD ∅

/-- Invariant 1: `docId ∈ postings[t]` ⇔ `t ∈ docTokens[docId]`. -/
def Inv1 (idx : Index) : Prop := ∀ t d, postingMem idx t d ↔ tokenMem idx d t

/-- Invariant 2: `docTokens[docId]` is defined ⇔ `documents[docId]` is
defined ⇔ some path maps to `docId` in `pathIndex`. -/
def Inv2 (idx : Index) : Prop :=
  ∀ d, ((idx.doc_tokens d).isSome ↔ (idx.documents d).isSome) ∧
    ((idx.documents d).isSome ↔ ∃ p, idx.path_to_id p = some d)

/-- Invariant 3: no token maps to an empty set in `postings`. -/
def Inv3 (idx : Index) : Prop := ∀ t s, idx.postings t = some s → s.Nonempty

/-- Invariant 4: `pathIndex` is injective onto live document ids — no two
paths name the same current document. -/
def Inv4 (idx : Index) : Prop :=
  ∀ p q d, idx.path_to_id p = some d → idx.path_to_id q = some d → p = q

/-- The four data-model invariants of spec §3. -/
def Invariants (idx : Index) : Prop := Inv1 idx ∧ Inv2 idx ∧ Inv3 idx ∧ Inv4 idx

/-- Path coherence: a `pathIndex` binding points at a stored document whose
recorded path is that very path.  (Not one of the four listed invariants,
but needed for them to be inductive: `remove_document` finds the
`pathIndex` entry via the document's stored path.) -/
def Coherent (idx : Index) : Prop :=
  ∀ p d, idx.path_to_id p = some d →
    ∃ doc, idx.documents d = some doc ∧ doc.path = p

/-! ## Concrete states and documents used by witnesses and counterexamples -/

/-- The path `"p"`. -/
def pStr : Str := ['p']

/-- The path `"q"`. -/
def qStr : Str := ['q']

/-- The token `"x"`. -/
def xTok : Str := ['x']

/-- The token `"y"`. -/
def yTok : Str := ['y']

/-- A document with id 1 at path `"p"`, content `"x"`. -/
def doc1ex : Document := ⟨1, pStr, xTok, none⟩

/-- An index holding exactly `doc1ex`: `postings = {"x" ↦ {1}}`,
`documents = {1 ↦ doc1ex}`, `pathIndex = {"p" ↦ 1}`,
`docTokens = {1 ↦ {"x"}}`.  It satisfies the four invariants and coherence. -/
def exIdx : Index :=
  { postings := fun t => if t = xTok then some {1} else none
    documents := fun i => if i = 1 then some doc1ex else none
    path_to_id := fun p => if p = pStr then some 1 else none
    doc_tokens := fun i => if i = 1 then some {xTok} else none }

/-- A document with a fresh id 2 but the already-bound path `"p"`. -/
def doc2ex : Document := ⟨2, pStr, xTok, none⟩

/-- A document with fresh id 2, bound path `"p"`, content `"y"`. -/
def doc2y : Document := ⟨2, pStr, yTok, none⟩

/-- An index with a poisoned posting entry `{"y" ↦ {5}}` and no documents at
all (it violates invariants 1 and 2). -/
def badIdx : Index :=
  { postings := fun t => if t = yTok then some {5} else none
    documents := fun _ => none
    path_to_id := fun _ => none
    doc_tokens := fun _ => none }

/-- A document with id 7 at path `"p"`, content `"y"`. -/
def doc7 : Document := ⟨7, pStr, yTok, none⟩

/-- A document with id 0 at path `"p"`, content `"x"`. -/
def doc0 : Document := ⟨0, pStr, xTok, none⟩

/-- A document with id 0 at path `"p"` whose content `"!"` tokenizes to
nothing. -/
def doc0bang : Document := ⟨0, pStr, ['!'], none⟩

/-- The string `"naïve"`. -/
def naiveStr : Str := ['n', 'a', 'ï', 'v', 'e']

/-! ## Tokenizer lemmas -/

/-- An ASCII alphanumeric character is not whitespace. -/
lemma alnum_not_ws (c : Char) (h : isAsciiAlphanumeric c = true) :
    isRustWhitespace c = false := by
  simp only [isAsciiAlphanumeric, Bool.or_eq_true, Bool.and_eq_true,
    decide_eq_true_eq] at h
  simp only [isRustWhitespace, Bool.or_eq_false_iff, Bool.and_eq_false_iff,
    decide_eq_false_iff_not, not_le, beq_eq_false_iff_ne, ne_eq]
  omega

/-- A kept character is returned unchanged by the cleaning loop. -/
lemma cleanedChar_of_alnum (c : Char) (h : isAsciiAlphanumeric c = true) :
    cleanedChar c = c := by
  simp [cleanedChar, h]

/-- After the cleaning loop, a character is whitespace exactly when the
original character was not ASCII-alphanumeric. -/
lemma isRustWhitespace_cleanedChar (c : Char) :
    isRustWhitespace (cleanedChar c) = !isAsciiAlphanumeric c := by
  by_cases ha : isAsciiAlphanumeric c
  · rw [cleanedChar_of_alnum c ha, alnum_not_ws c ha, ha]
    rfl
  · simp only [Bool.not_eq_true] at ha
    by_cases hw : isRustWhitespace c
    · have hc : cleanedChar c = c := by simp [cleanedChar, hw]
      rw [hc, hw, ha]
      rfl
    · have hc : cleanedChar c = ' ' := by simp [cleanedChar, ha, hw]
      rw [hc, ha]
      decide

/-- Splitting the cleaned string on whitespace is splitting the original
string at its non-ASCII-alphanumeric characters. -/
lemma splitSepGo_cleaned (l : Str) :
    ∀ acc : Str,
      splitSepGo isRustWhitespace (l.map cleanedChar) acc =
        splitSepGo (fun c => !isAsciiAlphanumeric c) l acc := by
  induction l with
  | nil => intro acc; rfl
  | cons c cs ih =>
    intro acc
    simp only [List.map_cons, splitSepGo, isRustWhitespace_cleanedChar c]
    by_cases ha : isAsciiAlphanumeric c
    · simp only [ha, Bool.not_true, Bool.false_eq_true, if_false,
        cleanedChar_of_alnum c ha, ih]
    · simp only [Bool.not_eq_true'] at ha
      simp only [ha, Bool.not_false, if_true]
      by_cases hacc : acc = [] <;> simp [hacc, ih]

/-- No piece returned by the splitter is empty. -/
lemma ne_nil_of_mem_splitSepGo (sep : Char → Bool) (l : Str) :
    ∀ (acc t : Str), t ∈ splitSepGo sep l acc → t ≠ [] := by
  induction l with
  | nil =>
    intro acc t ht
    by_cases hacc : acc = []
    · simp [splitSepGo, hacc] at ht
    · simp only [splitSepGo, hacc, if_false, List.mem_singleton] at ht
      subst ht
      simpa using hacc
  | cons c cs ih =>
    intro acc t ht
    simp only [splitSepGo] at ht
    by_cases hs : sep c
    · simp only [hs, if_true] at ht
      by_cases hacc : acc = []
      · simp only [hacc, if_true] at ht
        exact ih [] t ht
      · simp only [hacc, if_false, List.mem_cons] at ht
        rcases ht with h | h
        · subst h; simpa using hacc
        · exact ih [] t h
    · simp only [hs, if_false] at ht
      exact ih (c :: acc) t ht

/-! ## Search lemmas -/

/-- Membership in the union fold of `search_query`. -/
lemma mem_foldl_union (f : Str → Finset Uuid) (i : Uuid) (ts : List Str) :
    ∀ init : Finset Uuid,
      i ∈ ts.foldl (fun acc t => acc ∪ f t) init ↔
        i ∈ init ∨ ∃ t ∈ ts, i ∈ f t := by
  induction ts with
  | nil => simp
  | cons t ts ih =>
    intro init
    simp only [List.foldl_cons]
    rw [ih]
    simp only [Finset.mem_union, List.mem_cons]
    constructor
    · rintro ((h | h) | ⟨u, hu, hiu⟩)
      · exact Or.inl h
      · exact Or.inr ⟨t, Or.inl rfl, h⟩
      · exact Or.inr ⟨u, Or.inr hu, hiu⟩
    · rintro (h | ⟨u, (rfl | hu), hiu⟩)
      · exact Or.inl (Or.inl h)
      · exact Or.inl (Or.inr hiu)
      · exact Or.inr ⟨u, hu, hiu⟩

/-- A document id is returned by `search_query` exactly when some token of
the query has it in its posting set. -/
lemma mem_search_query (idx : Index) (q : Str) (i : Uuid) :
    i ∈ search_query idx q ↔ ∃ t ∈ tokenize q, i ∈ (idx.postings t).getD ∅ := by
  unfold search_query
  rw [mem_foldl_union]
  simp

/-- `search_query` is the set union of the posting sets of the query's
tokens. -/
lemma search_query_eq_biUnion (idx : Index) (q : Str) :
    search_query idx q =
      (tokenize q).toFinset.biUnion (fun t => (idx.postings t).getD ∅) := by
  ext i
  rw [mem_search_query, Finset.mem_biUnion]
  simp

/-! ## Index operation lemmas -/

/-- Posting-set membership after `add_document`. -/
lemma add_postingMem (idx : Index) (doc : Document) (t : Str) (i : Uuid) :
    postingMem (add_document idx doc) t i ↔
      postingMem idx t i ∨ (t ∈ uniqueTokens doc.content ∧ i = doc.id) := by
  unfold postingMem add_document
  by_cases ht : t ∈ uniqueTokens doc.content
  · simp only [ht, if_true, Option.getD_some, Finset.mem_insert, true_and]
    tauto
  · simp [ht]

/-- Token-set membership after `add_document`. -/
lemma add_tokenMem (idx : Index) (doc : Document) (i : Uuid) (t : Str) :
    tokenMem (add_document idx doc) i t ↔
      (i = doc.id ∧ t ∈ uniqueTokens doc.content) ∨
        (i ≠ doc.id ∧ tokenMem idx i t) := by
  unfold tokenMem add_document
  by_cases hi : i = doc.id <;> simp [hi]

/-- `add_document` binds the document's path to its id. -/
lemma add_path_self (idx : Index) (doc : Document) :
    (add_document idx doc).path_to_id doc.path = some doc.id := by
  simp [add_document]

/-- `add_document` stores the document under its id. -/
lemma add_documents_self (idx : Index) (doc : Document) :
    (add_document idx doc).documents doc.id = some doc := by
  simp [add_document]

/-- `remove_document` on an id absent from both `documents` and
`doc_tokens` is the identity. -/
lemma remove_noop (idx : Index) (d : Uuid) (h1 : idx.documents d = none)
    (h2 : idx.doc_tokens d = none) : remove_document idx d = idx := by
  unfold remove_document
  simp only [h1, h2]

/-- `remove_document` in the main case (the document and its token set are
both stored), as an explicit state. -/
lemma remove_eq_main (idx : Index) (d : Uuid) (doc : Document) (T : Finset Str)
    (h1 : idx.documents d = some doc) (h2 : idx.doc_tokens d = some T) :
    remove_document idx d =
      { postings := fun t =>
          if t ∈ T then erasePosting (idx.postings t) d else idx.postings t
        documents := fun i => if i = d then none else idx.documents i
        path_to_id := fun p => if p = doc.path then none else idx.path_to_id p
        doc_tokens := fun i => if i = d then none else idx.doc_tokens i } := by
  unfold remove_document
  simp only [h1, h2]

/-- Membership in an `erasePosting` result. -/
lemma mem_erasePosting (o : Option (Finset Uuid)) (d i : Uuid) :
    i ∈ (erasePosting o d).getD ∅ ↔ i ∈ o.getD ∅ ∧ i ≠ d := by
  cases o with
  | none => simp [erasePosting]
  | some ids =>
    by_cases he : ids.erase d = ∅
    · simp only [erasePosting, he, if_true, Option.getD_none, Option.getD_some,
        Finset.not_mem_empty, false_iff, not_and]
      intro hmem hne
      have hm : i ∈ ids.erase d := Finset.mem_erase.mpr ⟨hne, hmem⟩
      rw [he] at hm
      simp at hm
    · simp only [erasePosting, he, if_false, Option.getD_some, Option.getD_some,
        Finset.mem_erase]
      tauto

/-- `erasePosting` on a present entry, unfolded. -/
lemma erasePosting_some_eq (ids : Finset Uuid) (d : Uuid) :
    erasePosting (some ids) d =
      if ids.erase d = ∅ then none else some (ids.erase d) := rfl

/-- A surviving posting entry after `erasePosting` is nonempty. -/
lemma erasePosting_some (o : Option (Finset Uuid)) (d : Uuid) (s : Finset Uuid)
    (h : erasePosting o d = some s) : s.Nonempty := by
  cases o with
  | none => simp [erasePosting] at h
  | some ids =>
    by_cases he : ids.erase d = ∅
    · simp [erasePosting, he] at h
    · simp only [erasePosting, he, if_false, Option.some.injEq] at h
      subst h
      exact Finset.nonempty_iff_ne_empty.mpr he

/-- Posting-set membership after `remove_document` (main case). -/
lemma remove_postingMem (idx : Index) (d : Uuid) (doc : Document) (T : Finset Str)
    (h1 : idx.documents d = some doc) (h2 : idx.doc_tokens d = some T)
    (t : Str) (i : Uuid) :
    postingMem (remove_document idx d) t i ↔
      postingMem idx t i ∧ ¬(t ∈ T ∧ i = d) := by
  rw [remove_eq_main idx d doc T h1 h2]
  unfold postingMem
  by_cases ht : t ∈ T
  · simp only [ht, if_true, mem_erasePosting, true_and]
  · simp only [ht, if_false, false_and, not_false_iff, and_true]

/-- Token-set membership after `remove_document` (main case). -/
lemma remove_tokenMem (idx : Index) (d : Uuid) (doc : Document) (T : Finset Str)
    (h1 : idx.documents d = some doc) (h2 : idx.doc_tokens d = some T)
    (i : Uuid) (t : Str) :
    tokenMem (remove_document idx d) i t ↔ tokenMem idx i t ∧ i ≠ d := by
  rw [remove_eq_main idx d doc T h1 h2]
  unfold tokenMem
  by_cases hi : i = d <;> simp [hi]

/-- Under the invariants with coherence, a stored document's path is bound
to its id. -/
lemma docs_path_binding (idx : Index) (hinv : Invariants idx) (hco : Coherent idx)
    {d : Uuid} {doc : Document} (h : idx.documents d = some doc) :
    idx.path_to_id doc.path = some d := by
  obtain ⟨hi1, hi2, hi3, hi4⟩ := hinv
  obtain ⟨p, hp⟩ := ((hi2 d).2).mp (by simp [h])
  obtain ⟨doc2, hdoc2, hpath⟩ := hco p d hp
  rw [h, Option.some.injEq] at hdoc2
  rw [← hdoc2, hpath] at *
  exact hp

/-! ## Invariant preservation -/

/-- `remove_document` preserves the four invariants and coherence. -/
lemma preserve_remove (idx : Index) (d : Uuid)
    (hinv : Invariants idx) (hco : Coherent idx) :
    Invariants (remove_document idx d) ∧ Coherent (remove_document idx d) := by
  obtain ⟨hi1, hi2, hi3, hi4⟩ := hinv
  cases hdt : idx.doc_tokens d with
  | none =>
    have hdoc : idx.documents d = none := by
      have h := (hi2 d).1
      rw [hdt] at h
      simpa [Option.isSome] using (Option.not_isSome_iff_eq_none.mp (by
        intro hs
        exact absurd (h.mpr hs) (by simp)))
    rw [remove_noop idx d hdoc hdt]
    exact ⟨⟨hi1, hi2, hi3, hi4⟩, hco⟩
  | some T =>
    have hdoc : ∃ doc, idx.documents d = some doc := by
      have h := (hi2 d).1
      rw [hdt] at h
      have : (idx.documents d).isSome := h.mp (by simp)
      exact Option.isSome_iff_exists.mp this
    obtain ⟨doc, hdoc⟩ := hdoc
    have hbind : idx.path_to_id doc.path = some d :=
      docs_path_binding idx ⟨hi1, hi2, hi3, hi4⟩ hco hdoc
    have hTmem : ∀ t, tokenMem idx d t ↔ t ∈ T := by
      intro t
      unfold tokenMem
      rw [hdt]
      simp
    have hflds := remove_eq_main idx d doc T hdoc hdt
    refine ⟨⟨?_, ?_, ?_, ?_⟩, ?_⟩
    · -- Inv1
      intro t i
      rw [remove_postingMem idx d doc T hdoc hdt, remove_tokenMem idx d doc T hdoc hdt,
        hi1 t i]
      by_cases hi : i = d
      · subst hi
        rw [hTmem t]
        tauto
      · simp [hi]
    · -- Inv2
      intro i
      rw [hflds]
      by_cases hi : i = d
      · subst hi
        simp only [if_pos rfl, Option.isSome_none]
        refine ⟨Iff.rfl, ?_⟩
        constructor
        · intro h; simp at h
        · rintro ⟨p, hp⟩
          by_cases hpd : p = doc.path
          · simp [hpd] at hp
          · simp only [hpd, if_false] at hp
            exact absurd (hi4 p doc.path _ hp hbind) hpd
      · simp only [hi, if_false]
        refine ⟨(hi2 i).1, ?_⟩
        constructor
        · intro h
          obtain ⟨p, hp⟩ := (hi2 i).2.mp h
          refine ⟨p, ?_⟩
          have hpd : p ≠ doc.path := by
            intro hpe
            rw [hpe, hbind, Option.some.injEq] at hp
            exact hi hp.symm
          simp [hpd, hp]
        · rintro ⟨p, hp⟩
          by_cases hpd : p = doc.path
          · simp [hpd] at hp
          · simp only [hpd, if_false] at hp
            exact (hi2 i).2.mpr ⟨p, hp⟩
    · -- Inv3
      intro t s
      rw [hflds]
      by_cases ht : t ∈ T
      · simp only [ht, if_true]
        exact erasePosting_some (idx.postings t) d s
      · simp only [ht, if_false]
        exact hi3 t s
    · -- Inv4
      intro p q i
      rw [hflds]
      by_cases hpd : p = doc.path
      · simp [hpd]
      · by_cases hqd : q = doc.path
        · simp [hpd, hqd]
        · simp only [hpd, hqd, if_false]
          exact hi4 p q i
    · -- Coherent
      intro p i
      rw [hflds]
      by_cases hpd : p = doc.path
      · simp [hpd]
      · simp only [hpd, if_false]
        intro hp
        obtain ⟨doc2, hdoc2, hpath2⟩ := hco p i hp
        have hid : i ≠ d := by
          intro hid
          subst hid
          exact hpd (hi4 p doc.path i hp hbind)
        exact ⟨doc2, by simp [hid, hdoc2], hpath2⟩

/-- `add_document` preserves the four invariants and coherence, provided the
document's id is not already stored and its path is not already bound. -/
lemma preserve_add (idx : Index) (doc : Document)
    (hinv : Invariants idx) (hco : Coherent idx)
    (hid : idx.documents doc.id = none) (hp : idx.path_to_id doc.path = none) :
    Invariants (add_document idx doc) ∧ Coherent (add_document idx doc) := by
  obtain ⟨hi1, hi2, hi3, hi4⟩ := hinv
  have hdt : idx.doc_tokens doc.id = none := by
    have h := (hi2 doc.id).1
    rw [hid] at h
    rcases hh : idx.doc_tokens doc.id with _ | v
    · rfl
    · exfalso
      have := h.mp (by simp [hh])
      simp at this
  have hnotin : ∀ t, ¬ postingMem idx t doc.id := by
    intro t hmem
    rw [hi1 t doc.id] at hmem
    unfold tokenMem at hmem
    rw [hdt] at hmem
    simp at hmem
  have hnopath : ∀ p, idx.path_to_id p ≠ some doc.id := by
    intro p hmem
    have := (hi2 doc.id).2.mpr ⟨p, hmem⟩
    rw [hid] at this
    simp at this
  refine ⟨⟨?_, ?_, ?_, ?_⟩, ?_⟩
  · -- Inv1
    intro t i
    rw [add_postingMem, add_tokenMem, hi1 t i]
    by_cases hi : i = doc.id
    · subst hi
      have h1 : ¬ tokenMem idx doc.id t := by
        rw [← hi1 t doc.id]
        exact hnotin t
      tauto
    · tauto
  · -- Inv2
    intro i
    by_cases hi : i = doc.id
    · subst hi
      simp only [add_document]
      refine ⟨by simp, ?_⟩
      constructor
      · intro _
        exact ⟨doc.path, by simp⟩
      · intro _
        simp
    · have hflds1 : (add_document idx doc).documents i = idx.documents i := by
        simp [add_document, hi]
      have hflds2 : (add_document idx doc).doc_tokens i = idx.doc_tokens i := by
        simp [add_document, hi]
      rw [hflds1, hflds2]
      refine ⟨(hi2 i).1, ?_⟩
      constructor
      · intro h
        obtain ⟨p, hpi⟩ := (hi2 i).2.mp h
        have hpd : p ≠ doc.path := by
          intro hpe
          rw [hpe, hp] at hpi
          cases hpi
        exact ⟨p, by simp [add_document, hpd, hpi]⟩
      · rintro ⟨p, hpi⟩
        by_cases hpd : p = doc.path
        · rw [hpd] at hpi
          rw [add_path_self, Option.some.injEq] at hpi
          exact absurd hpi.symm hi
        · simp only [add_document, hpd, if_false] at hpi
          exact (hi2 i).2.mpr ⟨p, hpi⟩
  · -- Inv3
    intro t s
    by_cases ht : t ∈ uniqueTokens doc.content
    · simp only [add_document, ht, if_true, Option.some.injEq]
      intro h
      rw [← h]
      exact Finset.insert_nonempty _ _
    · simp only [add_document, ht, if_false]
      exact hi3 t s
  · -- Inv4
    intro p q i
    by_cases hi : i = doc.id
    · subst hi
      intro hpi hqi
      have hpd : p = doc.path := by
        by_contra hpd
        simp only [add_document, hpd, if_false] at hpi
        exact hnopath p hpi
      have hqd : q = doc.path := by
        by_contra hqd
        simp only [add_document, hqd, if_false] at hqi
        exact hnopath q hqi
      rw [hpd, hqd]
    · intro hpi hqi
      have hpd : p ≠ doc.path := by
        intro hpe
        rw [hpe, add_path_self, Option.some.injEq] at hpi
        exact hi hpi.symm
      have hqd : q ≠ doc.path := by
        intro hqe
        rw [hqe, add_path_self, Option.some.injEq] at hqi
        exact hi hqi.symm
      simp only [add_document, hpd, hqd, if_false] at hpi hqi
      exact hi4 p q i hpi hqi
  · -- Coherent
    intro p i
    by_cases hpd : p = doc.path
    · subst hpd
      rw [add_path_self, Option.some.injEq]
      intro h
      exact ⟨doc, by rw [← h, add_documents_self], rfl⟩
    · simp only [add_document, hpd, if_false]
      intro hpi
      have hi : i ≠ doc.id := fun he => hnopath p (he ▸ hpi)
      obtain ⟨doc2, hdoc2, hpath2⟩ := hco p i hpi
      exact ⟨doc2, by simp [add_document, hi, hdoc2], hpath2⟩

/-- `remove_document_by_path` preserves the four invariants and coherence. -/
lemma preserve_remove_by_path (idx : Index) (p : Str)
    (hinv : Invariants idx) (hco : Coherent idx) :
    Invariants (remove_document_by_path idx p) ∧
      Coherent (remove_document_by_path idx p) := by
  unfold remove_document_by_path
  cases hb : idx.path_to_id p with
  | none => exact ⟨hinv, hco⟩
  | some e => exact preserve_remove idx e hinv hco

/-- `upsert_document` preserves the four invariants and coherence, provided
the incoming id is the one currently bound to the path, or is wholly fresh. -/
lemma preserve_upsert (idx : Index) (doc : Document)
    (hinv : Invariants idx) (hco : Coherent idx)
    (hok : idx.path_to_id doc.path = some doc.id ∨ idx.documents doc.id = none) :
    Invariants (upsert_document idx doc) ∧ Coherent (upsert_document idx doc) := by
  unfold upsert_document
  cases hb : idx.path_to_id doc.path with
  | none =>
    have hid : idx.documents doc.id = none := by
      rcases hok with h | h
      · rw [hb] at h; cases h
      · exact h
    exact preserve_add idx doc hinv hco hid hb
  | some e =>
    obtain ⟨hR, hRco⟩ := preserve_remove idx e hinv hco
    obtain ⟨docE, hdocE, hpathE⟩ := hco doc.path e hb
    have hTE : ∃ TE, idx.doc_tokens e = some TE := by
      have h := (hinv.2.1 e).1
      have : (idx.doc_tokens e).isSome := h.mpr (by simp [hdocE])
      exact Option.isSome_iff_exists.mp this
    obtain ⟨TE, hTE⟩ := hTE
    have hflds := remove_eq_main idx e docE TE hdocE hTE
    have hid2 : (remove_document idx e).documents doc.id = none := by
      rw [hflds]
      by_cases hde : doc.id = e
      · simp [hde]
      · simp only [hde, if_false]
        rcases hok with h | h
        · rw [hb, Option.some.injEq] at h
          exact absurd h.symm hde
        · exact h
    have hp2 : (remove_document idx e).path_to_id doc.path = none := by
      rw [hflds]
      simp [hpathE]
    exact preserve_add _ doc hR hRco hid2 hp2

/-- An id with no stored document has no stored token set (invariant 2). -/
lemma fresh_doc_tokens_none (idx : Index) (hinv : Invariants idx) {d : Uuid}
    (hid : idx.documents d = none) : idx.doc_tokens d = none := by
  have h := (hinv.2.1 d).1
  rw [hid] at h
  rcases hh : idx.doc_tokens d with _ | v
  · rfl
  · exfalso
    have := h.mp (by simp [hh])
    simp at this

/-- An id with no stored document appears in no posting set (invariants 1
and 2). -/
lemma fresh_not_in_postings (idx : Index) (hinv : Invariants idx) {d : Uuid}
    (hid : idx.documents d = none) : ∀ t, ¬ postingMem idx t d := by
  intro t hmem
  rw [hinv.1 t d] at hmem
  unfold tokenMem at hmem
  rw [fresh_doc_tokens_none idx hinv hid] at hmem
  simp at hmem

/-- A single-token query searches exactly that token's posting set. -/
lemma search_single (idx : Index) (q t : Str) (h : tokenize q = [t]) :
    search_query idx q = (idx.postings t).getD ∅ := by
  unfold search_query
  rw [h]
  simp

/-- The empty index satisfies the four invariants. -/
lemma invariants_new : Invariants Index.new := by
  refine ⟨fun t d => ?_, fun d => ?_, fun t s h => ?_, fun p q d hp _ => ?_⟩
  · simp [postingMem, tokenMem, Index.new]
  · simp [Index.new]
  · simp [Index.new] at h
  · simp [Index.new] at hp

/-- The empty index is path-coherent. -/
lemma coherent_new : Coherent Index.new := by
  intro p d h
  simp [Index.new] at h

/-- `exIdx` satisfies the four invariants. -/
lemma invariants_exIdx : Invariants exIdx := by
  refine ⟨fun t d => ?_, fun d => ?_, fun t s h => ?_, fun p q d hp hq => ?_⟩
  · unfold postingMem tokenMem exIdx
    by_cases ht : t = xTok <;> by_cases hd : d = 1 <;> simp [ht, hd]
  · by_cases hd : d = 1
    · subst hd
      refine ⟨by simp [exIdx], ?_, ?_⟩
      · intro _
        exact ⟨pStr, by simp [exIdx]⟩
      · intro _
        simp [exIdx]
    · refine ⟨by simp [exIdx, hd], ?_, ?_⟩
      · intro h
        simp [exIdx, hd] at h
      · rintro ⟨p, hp⟩
        unfold exIdx at hp
        dsimp only at hp
        split_ifs at hp with hpp
        · rw [Option.some.injEq] at hp
          exact absurd hp.symm hd
  · unfold exIdx at h
    dsimp only at h
    split_ifs at h with ht
    · rw [Option.some.injEq] at h
      rw [← h]
      exact ⟨1, by simp⟩
  · unfold exIdx at hp hq
    dsimp only at hp hq
    split_ifs at hp hq with hpp hqq
    rw [hpp, hqq]

/-- `exIdx` is path-coherent. -/
lemma coherent_exIdx : Coherent exIdx := by
  intro p d hp
  unfold exIdx at hp
  dsimp only at hp
  split_ifs at hp with hpp
  · rw [Option.some.injEq] at hp
    refine ⟨doc1ex, ?_, ?_⟩
    · simp [exIdx, ← hp]
    · rw [hpp]
      rfl

/-! ## The claims -/

/-- C2: for every index and every query string, `search_query` returns
exactly the set union of `postings[t]` over the tokens of the tokenized
query (absent tokens read as the empty set and contribute nothing); the
result is a set of document ids (the Rust `Vec` is collected from a
`HashSet` in unspecified order, so it carries no duplicates and its content
is exactly this set); when the query tokenizes to an empty token sequence
the result is empty. -/
theorem C2_search_union (idx : Index) (q : Str) :
    search_query idx q =
      (tokenize q).toFinset.biUnion (fun t => (idx.postings t).getD ∅) ∧
    (tokenize q = [] → search_query idx q = ∅) := by
  refine ⟨search_query_eq_biUnion idx q, fun h => ?_⟩
  unfold search_query
  rw [h]
  rfl

/-- Witness for C2 at the empty index and the empty query. -/
theorem C2_search_union_witness :
    tokenize [] = [] ∧ search_query Index.new [] = ∅ :=
  ⟨rfl, (C2_search_union Index.new []).2 rfl⟩

/-- C5 (amended): `tokenize` lower-cases the input and returns the maximal
runs of **ASCII**-alphanumeric characters of the lower-cased input — every
character that is not ASCII-alphanumeric (whitespace included) acts as a
token separator — and no returned token is empty.  (The claim's
"non-alphanumeric" reading with Unicode alphanumerics fails: see the
counterexample.) -/
theorem C5_tokenize_ascii (text : Str) :
    tokenize text =
      splitSep (fun c => !isAsciiAlphanumeric c) (toLowercase text) ∧
    ∀ tok ∈ tokenize text, tok ≠ [] := by
  constructor
  · unfold tokenize splitWhitespace splitSep
    exact splitSepGo_cleaned (toLowercase text) []
  · intro tok htok
    unfold tokenize splitWhitespace splitSep at htok
    exact ne_nil_of_mem_splitSepGo _ _ _ tok htok

/-- Witness for C5 on the input `"Rust!"`. -/
theorem C5_tokenize_ascii_witness :
    tokenize ['R', 'u', 's', 't', '!'] =
      splitSep (fun c => !isAsciiAlphanumeric c)
        (toLowercase ['R', 'u', 's', 't', '!']) ∧
    ['r', 'u', 's', 't'] ≠ [] :=
  ⟨(C5_tokenize_ascii ['R', 'u', 's', 't', '!']).1,
    (C5_tokenize_ascii ['R', 'u', 's', 't', '!']).2 ['r', 'u', 's', 't'] (by decide)⟩

/-- Counterexample to C5 as stated: on `"naïve"` the code splits at `ï`
(which is not ASCII-alphanumeric) and returns `["na", "ve"]`, while the
spec's wording — every non-alphanumeric, non-whitespace character is a
separator, and `ï` **is** alphanumeric — keeps the word whole and returns
`["naïve"]`. -/
theorem C5_tokenize_ascii_cex :
    tokenize naiveStr = [['n', 'a'], ['v', 'e']] ∧
    tokenizeSpec naiveStr = [naiveStr] := by
  exact ⟨by decide, by decide⟩

/-- C6 (spec-modelled: `load_from_disk` is an empty stub in
src/src/index.rs, so the restore half is modelled from spec §4.1): restoring
from the snapshot produced by serializing a state reproduces all four maps
exactly; in particular `doc_tokens` round-trips verbatim, with no re-run of
the tokenizer. -/
theorem C6_snapshot_roundtrip (idx : Index) :
    load_from_disk (save_to_disk idx) = idx ∧
    (load_from_disk (save_to_disk idx)).doc_tokens = idx.doc_tokens :=
  ⟨rfl, rfl⟩

/-- C7: `remove_document` with an id not present in the index (absent from
`documents` and `doc_tokens`, which coincide under invariant 2) and
`remove_document_by_path` with an unbound path are both no-ops — all four
maps are unchanged, and the Rust functions return `()`, raising no error. -/
theorem C7_unknown_noop (idx : Index) (d : Uuid) (p : Str)
    (hd1 : idx.documents d = none) (hd2 : idx.doc_tokens d = none)
    (hp : idx.path_to_id p = none) :
    remove_document idx d = idx ∧ remove_document_by_path idx p = idx := by
  refine ⟨remove_noop idx d hd1 hd2, ?_⟩
  unfold remove_document_by_path
  rw [hp]

/-- Witness for C7 at the empty index. -/
theorem C7_unknown_noop_witness :
    remove_document Index.new 0 = Index.new ∧
      remove_document_by_path Index.new pStr = Index.new :=
  C7_unknown_noop Index.new 0 pStr rfl rfl rfl

/-- C8: a `Created` or `Modified` event whose file read fails (`readResult
= none`) is dropped: the index is returned unchanged (no map is mutated),
and a queue continuing with further events behaves exactly as if the failed
event had never been delivered. -/
theorem C8_read_failure_drops (idx : Index) (p : Str) (f g : Uuid)
    (rest : List (IndexEvent × Option (Str × Nat) × Uuid)) :
    syncStep idx (.Created p) none f = idx ∧
    syncStep idx (.Modified p) none g = idx ∧
    syncRun idx ((IndexEvent.Created p, none, f) :: rest) = syncRun idx rest ∧
    syncRun idx ((IndexEvent.Modified p, none, g) :: rest) = syncRun idx rest :=
  ⟨rfl, rfl, rfl, rfl⟩

/-- C1 (amended): for every index state satisfying the four data-model
invariants **and path coherence** (a `pathIndex` binding points at a stored
document with that path), each mutating public operation preserves the four
invariants and coherence, provided `add` requires the document's id not
already present **and its path not already bound**, and `upsert` requires
the incoming id to be the one currently bound to its path or wholly fresh;
`remove` and `removeByPath` need no precondition, and `search` takes
`&self` and cannot mutate the state.  (As stated over the four invariants
alone, with only the id-freshness precondition on `add`, the claim is
false: see the counterexample.) -/
theorem C1_invariants_preserved (idx : Index) (doc du : Document) (d : Uuid)
    (p : Str) (hinv : Invariants idx) (hco : Coherent idx)
    (hid : idx.documents doc.id = none) (hpath : idx.path_to_id doc.path = none)
    (hok : idx.path_to_id du.path = some du.id ∨ idx.documents du.id = none) :
    (Invariants (add_document idx doc) ∧ Coherent (add_document idx doc)) ∧
    (Invariants (remove_document idx d) ∧ Coherent (remove_document idx d)) ∧
    (Invariants (remove_document_by_path idx p) ∧
      Coherent (remove_document_by_path idx p)) ∧
    (Invariants (upsert_document idx du) ∧ Coherent (upsert_document idx du)) :=
  ⟨preserve_add idx doc hinv hco hid hpath,
   preserve_remove idx d hinv hco,
   preserve_remove_by_path idx p hinv hco,
   preserve_upsert idx du hinv hco hok⟩

/-- Witness for C1: adding and upserting `doc0` into the empty index keeps
the invariants. -/
theorem C1_invariants_preserved_witness :
    Invariants (add_document Index.new doc0) ∧
      Invariants (upsert_document Index.new doc0) := by
  have h := C1_invariants_preserved Index.new doc0 doc0 0 pStr invariants_new
    coherent_new rfl rfl (Or.inr rfl)
  exact ⟨h.1.1, h.2.2.2.1⟩

/-- Counterexample to C1 as stated: `exIdx` satisfies the four invariants
(and even path coherence), the document `doc2ex = ⟨2, "p", "x"⟩` meets the
claim's precondition for `add` (id 2 is not present), yet
`add_document exIdx doc2ex` violates invariant 2 — path `"p"` is rebound to
id 2, leaving document 1 stored with no path mapping to it. -/
theorem C1_invariants_preserved_cex :
    Invariants exIdx ∧ Coherent exIdx ∧ exIdx.documents 2 = none ∧
      ¬ Invariants (add_document exIdx doc2ex) := by
  refine ⟨invariants_exIdx, coherent_exIdx, rfl, ?_⟩
  rintro ⟨_, h2, _, _⟩
  have hs : ((add_document exIdx doc2ex).documents 1).isSome := by
    have : (add_document exIdx doc2ex).documents 1 = some doc1ex := by
      unfold add_document doc2ex exIdx
      norm_num
    rw [this]
    rfl
  obtain ⟨p, hp⟩ := (h2 1).2.mp hs
  unfold add_document doc2ex exIdx at hp
  dsimp only at hp
  by_cases hpp : p = pStr
  · rw [hpp] at hp
    simp at hp
  · simp [hpp] at hp

/-- C3 (amended): when the index satisfies the four invariants and the
document's id **and path** are both fresh (unstored and unbound), `add(D)`
followed by `remove(D.id)` restores the index exactly, across all four
maps.  (For every index state, as the claim says, it is false: `add`
overwrites the path binding and `remove` deletes it rather than restoring
the previous one — see the counterexample.) -/
theorem C3_roundtrip (idx : Index) (D : Document)
    (hinv : Invariants idx) (hid : idx.documents D.id = none)
    (hpath : idx.path_to_id D.path = none) :
    remove_document (add_document idx D) D.id = idx := by
  have hdt : idx.doc_tokens D.id = none := fresh_doc_tokens_none idx hinv hid
  have hnotin : ∀ t, ¬ postingMem idx t D.id := fresh_not_in_postings idx hinv hid
  have hAdoc : (add_document idx D).documents D.id = some D :=
    add_documents_self idx D
  have hAdt : (add_document idx D).doc_tokens D.id =
      some (uniqueTokens D.content) := by
    simp [add_document]
  rw [remove_eq_main (add_document idx D) D.id D (uniqueTokens D.content) hAdoc hAdt]
  refine Index.ext ?_ ?_ ?_ ?_
  · funext t
    by_cases ht : t ∈ uniqueTokens D.content
    · have hpt2 : (add_document idx D).postings t =
          some (insert D.id ((idx.postings t).getD ∅)) := by
        simp [add_document, ht]
      simp only [ht, if_true, hpt2]
      have hni : D.id ∉ (idx.postings t).getD ∅ := hnotin t
      rw [erasePosting_some_eq, Finset.erase_insert hni]
      cases hpt : idx.postings t with
      | none => simp
      | some s0 =>
        have hne : s0 ≠ ∅ := Finset.nonempty_iff_ne_empty.mp (hinv.2.2.1 t s0 hpt)
        simp [hne]
    · simp [add_document, ht]
  · funext i
    by_cases hi : i = D.id
    · subst hi
      simp [hid]
    · simp [add_document, hi]
  · funext p
    by_cases hp : p = D.path
    · subst hp
      simp [hpath]
    · simp [add_document, hp]
  · funext i
    by_cases hi : i = D.id
    · subst hi
      simp [hdt]
    · simp [add_document, hi]

/-- Witness for C3: round trip of `doc0` through the empty index. -/
theorem C3_roundtrip_witness :
    remove_document (add_document Index.new doc0) doc0.id = Index.new :=
  C3_roundtrip Index.new doc0 invariants_new rfl rfl

/-- Counterexample to C3 as stated: in `exIdx` the path `"p"` is bound to
id 1; adding `doc2y = ⟨2, "p", "y"⟩` rebinds `"p"` to 2 and the subsequent
`remove 2` deletes the `"p"` entry outright, so the original binding
`"p" ↦ 1` is lost and the pre-add state is not restored. -/
theorem C3_roundtrip_cex :
    remove_document (add_document exIdx doc2y) doc2y.id ≠ exIdx := by
  intro h
  have h2 := congrArg (fun j => j.path_to_id pStr) h
  exact absurd h2 (by decide)

/-- C4 (amended): when the index satisfies the four invariants **and path
coherence**, and a document is currently bound to `doc.path`,
`upsert_document doc` removes it in full and then adds `doc`: afterwards
`doc.path` is bound to `doc.id` and `doc.id` is the only stored document
with that path, a search for a token unique to the previous document's
content returns the empty set, and a search for a token unique to `doc`'s
content returns exactly `{doc.id}`.  (As stated over every index state the
claim is false — see the counterexample on a state violating the
invariants.) -/
theorem C4_upsert_replaces (idx : Index) (doc : Document) (e : Uuid)
    (tOld tNew qOld qNew : Str)
    (hinv : Invariants idx) (hco : Coherent idx)
    (hbound : idx.path_to_id doc.path = some e)
    (htOld : tokenMem idx e tOld)
    (htOldU : ∀ d2, d2 ≠ e → ¬ tokenMem idx d2 tOld)
    (htOldNew : tOld ∉ uniqueTokens doc.content)
    (htNew : tNew ∈ uniqueTokens doc.content)
    (htNewU : ∀ d2, ¬ tokenMem idx d2 tNew)
    (hqOld : tokenize qOld = [tOld]) (hqNew : tokenize qNew = [tNew]) :
    (upsert_document idx doc).path_to_id doc.path = some doc.id ∧
    (∀ d2 dd, (upsert_document idx doc).documents d2 = some dd →
      dd.path = doc.path → d2 = doc.id) ∧
    search_query (upsert_document idx doc) qOld = ∅ ∧
    search_query (upsert_document idx doc) qNew = {doc.id} := by
  have hup : upsert_document idx doc =
      add_document (remove_document idx e) doc := by
    unfold upsert_document
    rw [hbound]
  obtain ⟨docE, hdocE, hpathE⟩ := hco doc.path e hbound
  have hTE : ∃ TE, idx.doc_tokens e = some TE := by
    have h := (hinv.2.1 e).1
    exact Option.isSome_iff_exists.mp (h.mpr (by simp [hdocE]))
  obtain ⟨TE, hTE⟩ := hTE
  have htOldTE : tOld ∈ TE := by
    unfold tokenMem at htOld
    rw [hTE] at htOld
    simpa using htOld
  have hmem : ∀ t i,
      postingMem (add_document (remove_document idx e) doc) t i ↔
        ((postingMem idx t i ∧ ¬(t ∈ TE ∧ i = e)) ∨
          (t ∈ uniqueTokens doc.content ∧ i = doc.id)) := by
    intro t i
    rw [add_postingMem, remove_postingMem idx e docE TE hdocE hTE]
  refine ⟨?_, ?_, ?_, ?_⟩
  · rw [hup]
    exact add_path_self _ doc
  · intro d2 dd hdd hpp
    rw [hup] at hdd
    by_cases hd2 : d2 = doc.id
    · exact hd2
    · exfalso
      have hdd2 : (remove_document idx e).documents d2 = some dd := by
        have heq : (add_document (remove_document idx e) doc).documents d2 =
            (remove_document idx e).documents d2 := by
          simp [add_document, hd2]
        rw [heq] at hdd
        exact hdd
      rw [remove_eq_main idx e docE TE hdocE hTE] at hdd2
      dsimp only at hdd2
      by_cases hde : d2 = e
      · simp [hde] at hdd2
      · rw [if_neg hde] at hdd2
        have hb2 := docs_path_binding idx hinv hco hdd2
        rw [hpp, hbound] at hb2
        exact hde (Option.some.inj hb2).symm
  · rw [hup, search_single _ qOld tOld hqOld]
    rw [Finset.eq_empty_iff_forall_not_mem]
    intro i hi
    have hmem2 := hmem tOld i
    unfold postingMem at hmem2
    rcases hmem2.mp hi with ⟨hpm, hnot⟩ | ⟨hin, _⟩
    · by_cases hie : i = e
      · exact hnot ⟨htOldTE, hie⟩
      · exact htOldU i hie ((hinv.1 tOld i).mp hpm)
    · exact htOldNew hin
  · rw [hup, search_single _ qNew tNew hqNew]
    ext i
    have hmem2 := hmem tNew i
    unfold postingMem at hmem2
    rw [hmem2, Finset.mem_singleton]
    constructor
    · rintro (⟨hpm, _⟩ | ⟨_, hid⟩)
      · exact absurd ((hinv.1 tNew i).mp hpm) (htNewU i)
      · exact hid
    · intro hid
      exact Or.inr ⟨htNew, hid⟩

/-- Witness for C4: upserting `doc2y = ⟨2, "p", "y"⟩` over `exIdx` (document
1 at `"p"` with content `"x"`). -/
theorem C4_upsert_replaces_witness :
    (upsert_document exIdx doc2y).path_to_id pStr = some 2 ∧
    search_query (upsert_document exIdx doc2y) xTok = ∅ ∧
    search_query (upsert_document exIdx doc2y) yTok = {2} := by
  have h := C4_upsert_replaces exIdx doc2y 1 xTok yTok xTok yTok
    invariants_exIdx coherent_exIdx rfl (by unfold tokenMem; decide)
    (by
      intro d2 hne hmem
      unfold tokenMem exIdx at hmem
      dsimp only at hmem
      rw [if_neg hne] at hmem
      simp at hmem)
    (by decide) (by decide)
    (by
      intro d2 hmem
      unfold tokenMem exIdx at hmem
      dsimp only at hmem
      by_cases hd : d2 = 1
      · rw [if_pos hd] at hmem
        exact absurd hmem (by decide)
      · rw [if_neg hd] at hmem
        simp at hmem)
    (by decide) (by decide)
  exact ⟨h.1, h.2.2.1, h.2.2.2⟩

/-- Counterexample to C4 as stated ("for every index state"): in `badIdx`
no document is stored at all (so the token `"y"` is vacuously unique to the
upserted document's content), yet after `upsert_document badIdx doc7` a
search for `"y"` returns the poisoned posting id 5 alongside 7, not
`{doc7.id}`. -/
theorem C4_upsert_replaces_cex :
    badIdx.documents 5 = none ∧ badIdx.doc_tokens 5 = none ∧
      search_query (upsert_document badIdx doc7) yTok ≠ {7} :=
  ⟨rfl, rfl, by decide⟩

/-- C9: from an invariant, coherent state in which path `p` is unbound and
the minted id `f` is fresh, a successfully-read `Created(p)` mints and
binds `f`, and a subsequent successfully-read `Modified(p)` *reuses* `f`
(ignoring the fresh id `g` it could have minted): the final state binds `p`
to `f`, stores the modified content under the same id `f`, and `f` is the
only stored document whose path is `p`. -/
theorem C9_id_reuse (idx : Index) (p c1 c2 : Str) (t1 t2 : Nat) (f g : Uuid)
    (hinv : Invariants idx) (hco : Coherent idx)
    (hp : idx.path_to_id p = none) (hf : idx.documents f = none) :
    (syncStep idx (.Created p) (some (c1, t1)) f).path_to_id p = some f ∧
    (syncStep (syncStep idx (.Created p) (some (c1, t1)) f) (.Modified p)
        (some (c2, t2)) g).path_to_id p = some f ∧
    (syncStep (syncStep idx (.Created p) (some (c1, t1)) f) (.Modified p)
        (some (c2, t2)) g).documents f = some ⟨f, p, c2, some t2⟩ ∧
    ∀ d2 dd, (syncStep (syncStep idx (.Created p) (some (c1, t1)) f)
        (.Modified p) (some (c2, t2)) g).documents d2 = some dd →
      dd.path = p → d2 = f := by
  have hs1 : syncStep idx (.Created p) (some (c1, t1)) f =
      add_document idx ⟨f, p, c1, some t1⟩ := by
    unfold syncStep
    dsimp only
    rw [hp]
    unfold upsert_document
    dsimp only
    rw [hp]
  obtain ⟨hinvS1, hcoS1⟩ :=
    preserve_add idx ⟨f, p, c1, some t1⟩ hinv hco hf hp
  have hs1p : (add_document idx ⟨f, p, c1, some t1⟩).path_to_id p = some f :=
    add_path_self idx ⟨f, p, c1, some t1⟩
  have hs2 : syncStep (add_document idx ⟨f, p, c1, some t1⟩) (.Modified p)
      (some (c2, t2)) g =
      upsert_document (add_document idx ⟨f, p, c1, some t1⟩) ⟨f, p, c2, some t2⟩ := by
    unfold syncStep
    dsimp only
    rw [hs1p]
  obtain ⟨hinvS2, hcoS2⟩ :=
    preserve_upsert (add_document idx ⟨f, p, c1, some t1⟩) ⟨f, p, c2, some t2⟩
      hinvS1 hcoS1 (Or.inl hs1p)
  have hupeq : upsert_document (add_document idx ⟨f, p, c1, some t1⟩)
      ⟨f, p, c2, some t2⟩ =
      add_document (remove_document (add_document idx ⟨f, p, c1, some t1⟩) f)
        ⟨f, p, c2, some t2⟩ := by
    unfold upsert_document
    rw [hs1p]
  refine ⟨by rw [hs1]; exact hs1p, ?_, ?_, ?_⟩
  · rw [hs1, hs2, hupeq]
    exact add_path_self _ _
  · rw [hs1, hs2, hupeq]
    exact add_documents_self _ _
  · intro d2 dd hdd hpath2
    rw [hs1, hs2] at hdd
    have hb := docs_path_binding _ hinvS2 hcoS2 hdd
    rw [hpath2, hupeq, add_path_self] at hb
    exact (Option.some.inj hb).symm

/-- Witness for C9: `Created("p")` with content `"x"` then `Modified("p")`
with content `"y"` through the empty index keeps id 0 and stores the
modified content. -/
theorem C9_id_reuse_witness :
    (syncStep (syncStep Index.new (.Created pStr) (some (xTok, 0)) 0)
        (.Modified pStr) (some (yTok, 1)) 1).documents 0 =
      some ⟨0, pStr, yTok, some 1⟩ :=
  (C9_id_reuse Index.new pStr xTok yTok 0 1 0 1 invariants_new coherent_new
    rfl rfl).2.2.1

/-- C10: adding a document whose content tokenizes to no tokens (here the
hypothesis `tokenize D.content = []`) stores the document and its path
binding, stores the **empty set** as its token set, leaves `postings`
entirely unchanged (no entry is created), and thereafter no search query
returns `D.id`. -/
theorem C10_empty_content (idx : Index) (D : Document)
    (hinv : Invariants idx) (hid : idx.documents D.id = none)
    (htok : tokenize D.content = []) :
    (add_document idx D).documents D.id = some D ∧
    (add_document idx D).path_to_id D.path = some D.id ∧
    (add_document idx D).doc_tokens D.id = some ∅ ∧
    (add_document idx D).postings = idx.postings ∧
    ∀ q, D.id ∉ search_query (add_document idx D) q := by
  have hT : uniqueTokens D.content = ∅ := by
    unfold uniqueTokens
    rw [htok]
    rfl
  have hpost : (add_document idx D).postings = idx.postings := by
    funext t
    simp [add_document, hT]
  refine ⟨add_documents_self idx D, add_path_self idx D, ?_, hpost, ?_⟩
  · simp [add_document, hT]
  · intro q hmem
    have hsq : search_query (add_document idx D) q = search_query idx q := by
      unfold search_query
      rw [hpost]
    rw [hsq, mem_search_query] at hmem
    obtain ⟨t, _, hti⟩ := hmem
    exact fresh_not_in_postings idx hinv hid t hti

/-- Witness for C10: adding `doc0bang` (content `"!"`) to the empty index. -/
theorem C10_empty_content_witness :
    (add_document Index.new doc0bang).doc_tokens 0 = some ∅ ∧
    (add_document Index.new doc0bang).postings = Index.new.postings := by
  have h := C10_empty_content Index.new doc0bang invariants_new rfl (by decide)
  exact ⟨h.2.2.1, h.2.2.2.1⟩

end RustKS
